/-
Verification of the Aequitas core against its specification.

The development shallowly embeds the Rust sources of the `core` and
`consensus` crates: pure functions become Lean functions on `Nat`/`Int`
(machine integers are modelled as naturals with explicit `% 2^w` where
overflow matters), byte arrays become `List Nat` with `< 256` bounds
carried as hypotheses, and fallible code returns `Except`.

External behaviour that is not code of this repository is parametrised:
  * cryptographic primitives (Keccak-256, BLAKE3, Ed25519, bincode
    serialisation) are fields of an `Env` record, since their definitions
    live in external crates;
  * the IEEE-754 double arithmetic inside `Difficulty::calculate_next`
    is a field `fAdj` of the environment (the integer `max` with
    `MIN_DIFFICULTY` stays concrete, as in the source);
  * the iteration order of `std::collections::HashMap`, which Rust leaves
    unspecified, is a field `hmOrder` of the environment.
-/
import Mathlib

namespace Aequitas

/-! ### Byte-string arithmetic preliminaries -/

/-- Big-endian value of a byte string (most significant byte first). -/
def bytesToNat : List Nat → Nat
  | [] => 0
  | b :: rest => b * 256 ^ rest.length + bytesToNat rest

/-- Little-endian value of a byte string (least significant byte first). -/
def bytesToNatLE : List Nat → Nat
  | [] => 0
  | b :: rest => b + 256 * bytesToNatLE rest

/-- Little-endian fixed-width byte encoding of a natural number,
    as produced by Rust's `to_le_bytes`. -/
def natToBytesLE : Nat → Nat → List Nat
  | 0, _ => []
  | k + 1, n => n % 256 :: natToBytesLE k (n / 256)

/-- Big-endian fixed-width byte encoding of a natural number,
    as produced by Rust's `to_be_bytes`. -/
def natToBytesBE (k n : Nat) : List Nat :=
  (natToBytesLE k n).reverse

theorem bytesToNat_lt {l : List Nat} (h : ∀ x ∈ l, x < 256) :
    bytesToNat l < 256 ^ l.length := by
  induction l with
  | nil => simp [bytesToNat]
  | cons b rest ih =>
    have hb : b < 256 := h b (List.mem_cons_self _ _)
    have hr := ih (fun x hx => h x (List.mem_cons_of_mem _ hx))
    have h1 : b * 256 ^ rest.length + bytesToNat rest
        < (b + 1) * 256 ^ rest.length := by
      have := Nat.add_lt_add_left hr (b * 256 ^ rest.length)
      calc b * 256 ^ rest.length + bytesToNat rest
          < b * 256 ^ rest.length + 256 ^ rest.length := this
        _ = (b + 1) * 256 ^ rest.length := by ring
    have h2 : (b + 1) * 256 ^ rest.length ≤ 256 ^ (rest.length + 1) := by
      have : b + 1 ≤ 256 := hb
      calc (b + 1) * 256 ^ rest.length ≤ 256 * 256 ^ rest.length :=
            Nat.mul_le_mul_right _ this
        _ = 256 ^ (rest.length + 1) := by ring
    exact Nat.lt_of_lt_of_le h1 (by simpa [bytesToNat] using h2)

theorem bytesToNatLE_append (l : List Nat) (b : Nat) :
    bytesToNatLE (l ++ [b]) = bytesToNatLE l + 256 ^ l.length * b := by
  induction l with
  | nil => simp [bytesToNatLE]
  | cons c cs ih =>
    simp only [List.cons_append, bytesToNatLE, List.length_cons]
    rw [show cs.append [b] = cs ++ [b] from rfl, ih]
    ring

theorem bytesToNatLE_reverse (l : List Nat) :
    bytesToNatLE l.reverse = bytesToNat l := by
  induction l with
  | nil => rfl
  | cons b rest ih =>
    simp only [List.reverse_cons, bytesToNatLE_append, ih, bytesToNat,
      List.length_reverse]
    ring

theorem bytesToNatLE_natToBytesLE (k n : Nat) :
    bytesToNatLE (natToBytesLE k n) = n % 256 ^ k := by
  induction k generalizing n with
  | zero => simp [natToBytesLE, bytesToNatLE, Nat.mod_one]
  | succ k ih =>
    simp only [natToBytesLE, bytesToNatLE, ih]
    rw [pow_succ', Nat.mod_mul]

/-! ### Hash/target comparisons

`pow.rs` scans a 32-byte array from index 0 (most significant byte);
`aequihash.rs` scans from index 31 downwards. Both reduce to one
lexicographic scan, applied to the array respectively to its reversal. -/

/-- One lexicographic less-or-equal scan over byte lists; on the length-32
    arrays of the source both lists have the same length. -/
def lexLE : List Nat → List Nat → Bool
  | [], _ => true
  | _ :: _, [] => true
  | a :: as, b :: bs =>
    if a < b then true else if b < a then false else lexLE as bs

/-- `pow.rs` `hash_less_or_equal`: `for i in 0..32 { if a[i] < b[i] return
    true; if a[i] > b[i] return false }; true`. -/
def hash_less_or_equal (a b : List Nat) : Bool :=
  lexLE a b

/-- `aequihash.rs` `AequiHash::compare_hash_to_target`: the same scan but
    `for i in (0..32).rev()`, i.e. starting at byte 31. -/
def compare_hash_to_target (hash target : List Nat) : Bool :=
  lexLE hash.reverse target.reverse

theorem lexLE_eq_decide_le : ∀ {a b : List Nat}, a.length = b.length →
    (∀ x ∈ a, x < 256) → (∀ x ∈ b, x < 256) →
    lexLE a b = decide (bytesToNat a ≤ bytesToNat b)
  | [], [], _, _, _ => by simp [lexLE, bytesToNat]
  | [], _ :: _, h, _, _ => by simp at h
  | _ :: _, [], h, _, _ => by simp at h
  | a :: as, b :: bs, hlen, ha, hb => by
    have hlen' : as.length = bs.length := by simpa using hlen
    have haa : a < 256 := ha a (List.mem_cons_self _ _)
    have hbb : b < 256 := hb b (List.mem_cons_self _ _)
    have has : ∀ x ∈ as, x < 256 := fun x hx => ha x (List.mem_cons_of_mem _ hx)
    have hbs : ∀ x ∈ bs, x < 256 := fun x hx => hb x (List.mem_cons_of_mem _ hx)
    have hAlt : bytesToNat as < 256 ^ as.length := bytesToNat_lt has
    have hBlt : bytesToNat bs < 256 ^ bs.length := bytesToNat_lt hbs
    simp only [lexLE, bytesToNat]
    rcases Nat.lt_trichotomy a b with hab | hab | hab
    · have : a * 256 ^ as.length + bytesToNat as
          ≤ b * 256 ^ bs.length + bytesToNat bs := by
        have h1 : a * 256 ^ as.length + bytesToNat as
            < (a + 1) * 256 ^ as.length := by
          have := Nat.add_lt_add_left hAlt (a * 256 ^ as.length)
          calc a * 256 ^ as.length + bytesToNat as
              < a * 256 ^ as.length + 256 ^ as.length := this
            _ = (a + 1) * 256 ^ as.length := by ring
        have h2 : (a + 1) * 256 ^ as.length ≤ b * 256 ^ bs.length := by
          rw [hlen']
          exact Nat.mul_le_mul_right _ hab
        exact Nat.le_of_lt (Nat.lt_of_lt_of_le h1
          (h2.trans (Nat.le_add_right _ _)))
      simp [hab, this]
    · subst hab
      have : (a * 256 ^ as.length + bytesToNat as
          ≤ a * 256 ^ bs.length + bytesToNat bs)
          ↔ (bytesToNat as ≤ bytesToNat bs) := by
        rw [hlen']
        exact Nat.add_le_add_iff_left
      simp only [Nat.lt_irrefl, if_false]
      rw [lexLE_eq_decide_le hlen' has hbs]
      simp [this]
    · have : ¬ (a * 256 ^ as.length + bytesToNat as
          ≤ b * 256 ^ bs.length + bytesToNat bs) := by
        have h1 : b * 256 ^ bs.length + bytesToNat bs
            < (b + 1) * 256 ^ bs.length := by
          have := Nat.add_lt_add_left hBlt (b * 256 ^ bs.length)
          calc b * 256 ^ bs.length + bytesToNat bs
              < b * 256 ^ bs.length + 256 ^ bs.length := this
            _ = (b + 1) * 256 ^ bs.length := by ring
        have h2 : (b + 1) * 256 ^ bs.length ≤ a * 256 ^ as.length := by
          rw [← hlen']
          exact Nat.mul_le_mul_right _ hab
        have h3 : b * 256 ^ bs.length + bytesToNat bs
            < a * 256 ^ as.length + bytesToNat as :=
          Nat.lt_of_lt_of_le h1 (h2.trans (Nat.le_add_right _ (bytesToNat as)))
        omega
      have hnab : ¬ a < b := by omega
      simp [hnab, hab, this]

/-! ### Data model (`core` crate)

Byte arrays are `List Nat`; `Address` is the 20-byte payload of
`address.rs`. The cryptographic primitives and serialisations live in
external crates, so they enter through the `Env` record further below. -/

/-- 20-byte address payload (`address.rs` `Address.bytes`). -/
abbrev Address := List Nat

/-- `transaction.rs` `TxInput`. -/
structure TxInput where
  prev_tx_hash : List Nat
  output_index : Nat
  signature : List Nat
  public_key : List Nat
  deriving DecidableEq, Repr

/-- `transaction.rs` `TxOutput`. -/
structure TxOutput where
  amount : Nat
  recipient : Address
  deriving DecidableEq, Repr

/-- `transaction.rs` `TxType`. -/
inductive TxType where
  | Transfer
  | Coinbase
  | Vote
  | Proposal
  deriving DecidableEq, Repr

/-- `transaction.rs` `Transaction`. -/
structure Transaction where
  version : Nat
  tx_type : TxType
  inputs : List TxInput
  outputs : List TxOutput
  timestamp : Int
  memo : List Nat
  deriving DecidableEq, Repr

instance : Inhabited Transaction :=
  ⟨⟨0, TxType.Transfer, [], [], 0, []⟩⟩

/-- `block.rs` `BlockHeader`; the `chrono` timestamp is carried as the
    i64 seconds value that `timestamp()` extracts from it. -/
structure BlockHeader where
  version : Nat
  prev_hash : List Nat
  merkle_root : List Nat
  timestamp : Int
  difficulty : Nat
  nonce : Nat
  height : Nat
  extra_data : List Nat
  deriving DecidableEq, Repr

/-- `block.rs` `Block`. -/
structure Block where
  header : BlockHeader
  transactions : List Transaction
  deriving DecidableEq, Repr

/-- `blockchain.rs` `UtxoId`. -/
structure UtxoId where
  tx_hash : List Nat
  output_index : Nat
  deriving DecidableEq, Repr

/-- The external behaviour the embedding is parametric in: the
    cryptographic primitives and serialisations of external crates
    (`sha3`, `ed25519-dalek`, `bincode`), the IEEE-754 part of
    `Difficulty::calculate_next`, and the unspecified iteration order of
    `std::collections::HashMap` in `find_smallest_beneficiary`. -/
structure Env where
  /-- Keccak-256 digest of a byte string (`sha3` crate). -/
  keccak : List Nat → List Nat
  /-- `bincode::serialize` of a transaction. -/
  serTx : Transaction → List Nat
  /-- `bincode::serialize` of a block header. -/
  serHeader : BlockHeader → List Nat
  /-- whether `ed25519_dalek::VerifyingKey::from_bytes` succeeds. -/
  validKey : List Nat → Bool
  /-- `ed25519_dalek` signature verification: key, signature, message. -/
  verifySig : List Nat → List Nat → List Nat → Bool
  /-- value of `(current as f64 * adjustment) as u64` in
      `Difficulty::calculate_next`, as a function of `current`,
      `time_span` and `block_count`. -/
  fAdj : Nat → Int → Nat → Nat
  /-- iteration order of the `HashMap` consumed by `min_by_key` in
      `find_smallest_beneficiary`: Rust documents no order, so any
      permutation models one run. -/
  hmOrder : List (Address × Nat) → List (Address × Nat)

/-- `Transaction::hash`: Keccak-256 over the bincode serialisation. -/
def txHash (E : Env) (tx : Transaction) : List Nat :=
  E.keccak (E.serTx tx)

/-- `BlockHeader::hash`: Keccak-256 over the bincode serialisation. -/
def headerHash (E : Env) (h : BlockHeader) : List Nat :=
  E.keccak (E.serHeader h)

/-- `merkle.rs` `hash_pair`: Keccak-256 over the concatenation. -/
def hash_pair (E : Env) (a b : List Nat) : List Nat :=
  E.keccak (a ++ b)

/-! ### HashMap as association list

The UTXO map, the block map and the height index are `HashMap`s. They are
modelled as association lists with at most one entry per key; `insert`
replaces the entry of an existing key, as `HashMap::insert` does. No code
under consideration iterates these maps in an order-dependent way except
`find_smallest_beneficiary`, which goes through `Env.hmOrder`. -/

def mapRemove {κ ν : Type} [DecidableEq κ] (k : κ) (m : List (κ × ν)) :
    List (κ × ν) :=
  m.filter (fun p => p.1 ≠ k)

def mapInsert {κ ν : Type} [DecidableEq κ] (k : κ) (v : ν)
    (m : List (κ × ν)) : List (κ × ν) :=
  (k, v) :: mapRemove k m

def mapContains {κ ν : Type} [DecidableEq κ] (k : κ) (m : List (κ × ν)) :
    Bool :=
  m.any (fun p => p.1 = k)

def mapGet {κ ν : Type} [DecidableEq κ] (k : κ) (m : List (κ × ν)) :
    Option ν :=
  (m.find? (fun p => p.1 = k)).map Prod.snd

/-! ### Transactions (`transaction.rs`) -/

/-- `transaction.rs` `TxError`. -/
inductive TxError where
  | NoInputs
  | NoOutputs
  | InvalidSignature
  | InvalidPublicKey
  | MemoTooLarge
  | CoinbaseWithInputs
  | InsufficientFunds
  | DoubleSpend
  deriving DecidableEq, Repr

/-- Two's-complement `i64::to_le_bytes`. -/
def intToBytesLE64 (i : Int) : List Nat :=
  natToBytesLE 8 (i.emod (2 ^ 64)).toNat

/-- `Transaction::signing_message`: version LE ‖ inputs (prev hash ‖
    index LE) ‖ outputs (amount LE ‖ recipient) ‖ timestamp LE ‖ memo. -/
def signing_message (tx : Transaction) : List Nat :=
  natToBytesLE 4 tx.version
    ++ (tx.inputs.flatMap fun inp =>
          inp.prev_tx_hash ++ natToBytesLE 4 inp.output_index)
    ++ (tx.outputs.flatMap fun o =>
          natToBytesLE 8 o.amount ++ o.recipient)
    ++ intToBytesLE64 tx.timestamp
    ++ tx.memo

/-- `TxInput::verify`: key length, key decoding, signature length, then
    Ed25519 verification through the environment. -/
def TxInput.verify (E : Env) (inp : TxInput) (message : List Nat) :
    Except TxError Unit :=
  if inp.public_key.length ≠ 32 then .error .InvalidPublicKey
  else if ¬ E.validKey inp.public_key then .error .InvalidPublicKey
  else if inp.signature.length ≠ 64 then .error .InvalidSignature
  else if E.verifySig inp.public_key inp.signature message then .ok ()
  else .error .InvalidSignature

/-- The signature loop of `Transaction::validate`. -/
def verifyInputs (E : Env) (message : List Nat) :
    List TxInput → Except TxError Unit
  | [] => .ok ()
  | inp :: rest => do
    TxInput.verify E inp message
    verifyInputs E message rest

/-- `Transaction::validate`. -/
def Transaction.validate (E : Env) (tx : Transaction) :
    Except TxError Unit :=
  if tx.tx_type = TxType.Coinbase then
    if tx.inputs ≠ [] then .error .CoinbaseWithInputs
    else if tx.outputs = [] then .error .NoOutputs
    else .ok ()
  else if tx.inputs = [] then .error .NoInputs
  else if tx.outputs = [] then .error .NoOutputs
  else do
    verifyInputs E (signing_message tx) tx.inputs
    if tx.memo.length > 256 then .error .MemoTooLarge else .ok ()

/-- `Transaction::total_output`. -/
def total_output (tx : Transaction) : Nat :=
  (tx.outputs.map (fun o => o.amount)).sum

/-- ASCII bytes of the string "Aequitas Block " (the memo stem of
    `Transaction::coinbase`). -/
def aequitasBlockStem : List Nat :=
  [65, 101, 113, 117, 105, 116, 97, 115, 32, 66, 108, 111, 99, 107, 32]

/-- `Transaction::coinbase`; the `chrono` clock value is a parameter. -/
def Transaction.coinbase (recipient : Address) (reward height : Nat)
    (now : Int) : Transaction where
  version := 1
  tx_type := TxType.Coinbase
  inputs := []
  outputs := [⟨reward, recipient⟩]
  timestamp := now
  memo := aequitasBlockStem ++ (Nat.toDigits 10 height).map Char.toNat

/-! ### Merkle tree (`merkle.rs`)

The functions are stated over a generic pairing hash `hp` (instantiated
with `hash_pair E` by the block validator), and over the leaf-hash list,
mirroring the `hashes` vector of the source. -/

/-- One pass of the `while` loop of `compute_merkle_root`: combine
    `chunks(2)`, duplicating a trailing odd element. -/
def merkleLevel (hp : List Nat → List Nat → List Nat) :
    List (List Nat) → List (List Nat)
  | [] => []
  | [a] => [hp a a]
  | a :: b :: rest => hp a b :: merkleLevel hp rest

theorem merkleLevel_length (hp) : ∀ l : List (List Nat),
    (merkleLevel hp l).length = (l.length + 1) / 2
  | [] => rfl
  | [_] => by simp [merkleLevel]
  | _ :: _ :: rest => by
    simp only [merkleLevel, List.length_cons, merkleLevel_length hp rest]
    omega

/-- The `while hashes.len() > 1` reduction of `compute_merkle_root`. -/
def merkleReduce (hp : List Nat → List Nat → List Nat) :
    List (List Nat) → List Nat
  | [] => List.replicate 32 0
  | [a] => a
  | a :: b :: rest =>
    merkleReduce hp (merkleLevel hp (a :: b :: rest))
termination_by l => l.length
decreasing_by
  simp only [merkleLevel_length, List.length_cons]
  omega

/-- `merkle.rs` `compute_merkle_root`. -/
def compute_merkle_root (E : Env) (transactions : List Transaction) :
    List Nat :=
  if transactions = [] then List.replicate 32 0
  else merkleReduce (hash_pair E) (transactions.map (txHash E))

/-- `merkle.rs` `MerkleProof`. -/
structure MerkleProof where
  leaf : List Nat
  path : List (List Nat × Bool)
  deriving DecidableEq, Repr

/-- `MerkleProof::verify`: fold the path against the leaf and compare
    with the root. -/
def MerkleProof.verify (hp : List Nat → List Nat → List Nat)
    (p : MerkleProof) (root : List Nat) : Bool :=
  decide ((p.path.foldl
    (fun current sb =>
      if sb.2 then hp current sb.1 else hp sb.1 current) p.leaf) = root)

/-- The sibling entry one level of `build_merkle_proof` records for the
    element at `idx`: for an even `idx` the right neighbour (duplicated at
    an odd tail), flagged `true`; for an odd `idx` the left neighbour,
    flagged `false`. -/
def proofStep (l : List (List Nat)) (idx : Nat) : List Nat × Bool :=
  if idx % 2 = 0 then
    if idx + 1 < l.length then (l.getD (idx + 1) [], true)
    else (l.getD idx [], true)
  else (l.getD (idx - 1) [], false)

/-- The level loop of `build_merkle_proof`: record the sibling at each
    level, then move to the parent index `idx / 2`. -/
def buildPath (hp : List Nat → List Nat → List Nat) :
    List (List Nat) → Nat → List (List Nat × Bool)
  | [], _ => []
  | [_], _ => []
  | a :: b :: rest, idx =>
    proofStep (a :: b :: rest) idx
      :: buildPath hp (merkleLevel hp (a :: b :: rest)) (idx / 2)
termination_by l _ => l.length
decreasing_by
  simp only [merkleLevel_length, List.length_cons]
  omega

/-- `merkle.rs` `build_merkle_proof`. -/
def build_merkle_proof (E : Env) (transactions : List Transaction)
    (index : Nat) : Option MerkleProof :=
  if index ≥ transactions.length then none
  else
    let hashes := transactions.map (txHash E)
    some ⟨hashes.getD index [], buildPath (hash_pair E) hashes index⟩

/-! ### Blocks (`block.rs`) -/

/-- `block.rs` `GENESIS_REWARD`. -/
def GENESIS_REWARD : Nat := 50000000000

/-- `block.rs` `INITIAL_DIFFICULTY`. -/
def INITIAL_DIFFICULTY : Nat := 1000000

/-- `block.rs` `BlockError`. -/
inductive BlockError where
  | InvalidMerkleRoot
  | InsufficientProofOfWork
  | InvalidTransaction (e : TxError)
  | InvalidPrevHash
  | InvalidTimestamp
  deriving DecidableEq, Repr

/-- `BlockHeader::meets_difficulty`: the u64 read big-endian from the
    first 8 bytes of the Keccak header hash, compared against
    `u64::MAX / difficulty`. (On `difficulty = 0` the Rust division
    panics; the `Nat` division yields 0, and the reachability theorem for
    the chain shows the case never arises through `add_block`.) -/
def meets_difficulty (E : Env) (h : BlockHeader) : Bool :=
  decide (bytesToNat ((headerHash E h).take 8) ≤ (2 ^ 64 - 1) / h.difficulty)

/-- The transaction loop of `Block::validate`. -/
def validateAllTxs (E : Env) : List Transaction → Except TxError Unit
  | [] => .ok ()
  | tx :: rest => do
    Transaction.validate E tx
    validateAllTxs E rest

/-- `Block::validate`: recomputed Merkle root, proof of work, then every
    transaction. -/
def Block.validate (E : Env) (b : Block) : Except BlockError Unit :=
  if compute_merkle_root E b.transactions ≠ b.header.merkle_root then
    .error .InvalidMerkleRoot
  else if ¬ meets_difficulty E b.header then
    .error .InsufficientProofOfWork
  else
    (validateAllTxs E b.transactions).mapError BlockError.InvalidTransaction

/-- ASCII bytes of "Aequitas Genesis 2026" (`Address::genesis_address`). -/
def aequitasGenesisBytes : List Nat :=
  [65, 101, 113, 117, 105, 116, 97, 115, 32, 71, 101, 110, 101, 115,
   105, 115, 32, 50, 48, 50, 54]

/-- `Address::genesis_address`: trailing 20 bytes of the Keccak digest of
    "Aequitas Genesis 2026". -/
def genesis_address (E : Env) : Address :=
  (E.keccak aequitasGenesisBytes).drop 12

/-- `Block::genesis`; the two `Utc::now()` readings (coinbase timestamp,
    header timestamp) are parameters. -/
def Block.genesis (E : Env) (txNow hdrNow : Int) : Block :=
  let coinbase := Transaction.coinbase (genesis_address E) GENESIS_REWARD 0 txNow
  { header :=
      { version := 1
        prev_hash := List.replicate 32 0
        merkle_root := compute_merkle_root E [coinbase]
        timestamp := hdrNow
        difficulty := INITIAL_DIFFICULTY
        nonce := 0
        height := 0
        extra_data := List.replicate 32 0 }
    transactions := [coinbase] }

/-! ### Difficulty (`difficulty.rs`) -/

/-- `difficulty.rs` `TARGET_BLOCK_TIME`. -/
def TARGET_BLOCK_TIME : Nat := 30

/-- `difficulty.rs` `DIFFICULTY_AVERAGING_WINDOW`. -/
def DIFFICULTY_AVERAGING_WINDOW : Nat := 60

/-- `difficulty.rs` `MIN_DIFFICULTY`. -/
def MIN_DIFFICULTY : Nat := 1000

/-- `Difficulty::calculate_next`. The f64 segment (cast to doubles,
    division, `clamp`, multiplication, truncating cast back to u64) is the
    environment's `fAdj`; the window selection, the degenerate-input
    returns and the final `max` with `MIN_DIFFICULTY` are the integer code
    of the source. -/
def calculate_next (E : Env) (current : Nat)
    (block_times : List (Nat × Int)) : Nat :=
  if block_times.length < 2 then current
  else
    let window_size := min block_times.length DIFFICULTY_AVERAGING_WINDOW
    let recent := block_times.drop (block_times.length - window_size)
    let time_span : Int :=
      ((recent.getLast?.getD (0, 0)).2 - (recent.head?.getD (0, 0)).2)
    let block_count := recent.length - 1
    if block_count = 0 then current
    else Nat.max (E.fAdj current time_span block_count) MIN_DIFFICULTY

/-! ### Blockchain state (`blockchain.rs`) -/

/-- `blockchain.rs` `HALVING_INTERVAL`. -/
def HALVING_INTERVAL : Nat := 2100000

/-- `blockchain.rs` `TREASURY_PERCENTAGE`. -/
def TREASURY_PERCENTAGE : Nat := 1

/-- `blockchain.rs` `SOLIDARITY_PERCENTAGE`. -/
def SOLIDARITY_PERCENTAGE : Nat := 1

/-- `blockchain.rs` `ChainError`. -/
inductive ChainError where
  | InvalidPrevHash
  | InvalidHeight
  | InvalidDifficulty
  | BlockErr (e : BlockError)
  | TxErr (e : TxError)
  | NoTransactions
  | NoCoinbase
  | InvalidCoinbaseAmount
  | DoubleSpend
  | MissingUtxo
  | InvalidSolidarityRecipient
  deriving DecidableEq, Repr

/-- `blockchain.rs` `Blockchain`. -/
structure Blockchain where
  blocks : List (List Nat × Block)
  height_index : List (Nat × List Nat)
  tip : List Nat
  height : Nat
  utxos : List (UtxoId × TxOutput)
  block_times : List (Nat × Int)
  treasury_address : Address
  current_difficulty : Nat
  deriving DecidableEq, Repr

/-- `Blockchain::new`: genesis block, its UTXOs, one block-time entry. -/
def Blockchain.new (E : Env) (txNow hdrNow : Int) : Blockchain :=
  let genesis := Block.genesis E txNow hdrNow
  let genesis_hash := headerHash E genesis.header
  let tx0 := genesis.transactions.headD default
  { blocks := mapInsert genesis_hash genesis []
    height_index := mapInsert 0 genesis_hash []
    tip := genesis_hash
    height := 0
    utxos := tx0.outputs.enum.foldl
      (fun u p => mapInsert ⟨txHash E tx0, p.1⟩ p.2 u) []
    block_times := [(0, hdrNow)]
    treasury_address := genesis_address E
    current_difficulty := genesis.header.difficulty }

/-- `Blockchain::reward_for_height`: `GENESIS_REWARD >> halvings`, zero
    from the 64th halving on. -/
def reward_for_height (height : Nat) : Nat :=
  let halvings := height / HALVING_INTERVAL
  if halvings ≥ 64 then 0 else GENESIS_REWARD / 2 ^ halvings

/-- `Blockchain::rewards_for_height`: (miner, treasury, solidarity). -/
def rewards_for_height (height : Nat) : Nat × Nat × Nat :=
  let total := reward_for_height height
  let treasury := total * TREASURY_PERCENTAGE / 100
  let solidarity := total * SOLIDARITY_PERCENTAGE / 100
  (total - treasury - solidarity, treasury, solidarity)

/-- `Blockchain::get_block_at_height`. -/
def get_block_at_height (s : Blockchain) (height : Nat) : Option Block :=
  (mapGet height s.height_index).bind (fun h => mapGet h s.blocks)

/-- `Blockchain::get_balance`. -/
def get_balance (s : Blockchain) (address : Address) : Nat :=
  ((s.utxos.filter (fun p => p.2.recipient = address)).map
    (fun p => p.2.amount)).sum

/-- `Blockchain::circulating_supply`. -/
def circulating_supply (s : Blockchain) : Nat :=
  (s.utxos.map (fun p => p.2.amount)).sum

/-- The loop of `find_smallest_beneficiary` building `miner_balances`:
    `HashMap::insert` keyed by the first-output recipient of the first
    transaction of each block in the scanned range (the value, a balance
    in the current ledger, is the same on re-insertion). -/
def mapInsertOrd (k : Address) (v : Nat) :
    List (Address × Nat) → List (Address × Nat)
  | [] => [(k, v)]
  | (k', v') :: rest =>
    if k' = k then (k, v) :: rest else (k', v') :: mapInsertOrd k v rest

/-- The `miner_balances` map of `find_smallest_beneficiary`, in insertion
    order (the HashMap itself iterates in an unspecified order, applied
    afterwards through `Env.hmOrder`). -/
def minerBalances (s : Blockchain) : List (Address × Nat) :=
  (List.range' (s.height - 100) (s.height + 1 - (s.height - 100))).foldl
    (fun acc h =>
      match get_block_at_height s h with
      | none => acc
      | some block =>
        match block.transactions.head? with
        | none => acc
        | some coinbase =>
          match coinbase.outputs.head? with
          | none => acc
          | some output =>
            mapInsertOrd output.recipient
              (get_balance s output.recipient) acc)
    []

/-- Rust `Iterator::min_by_key`: the first element attaining the minimal
    key, `none` on an empty iterator. -/
def minByBalance : List (Address × Nat) → Option (Address × Nat)
  | [] => none
  | p :: rest =>
    match minByBalance rest with
    | none => some p
    | some q => if p.2 ≤ q.2 then some p else some q

/-- `Blockchain::find_smallest_beneficiary`. -/
def find_smallest_beneficiary (E : Env) (s : Blockchain) : Address :=
  match minByBalance (E.hmOrder (minerBalances s)) with
  | some p => p.1
  | none => s.treasury_address

/-- The input loop of `validate_block_transactions` for one transaction:
    double spends within the block, then UTXO existence. -/
def checkInputs (s : Blockchain) :
    List UtxoId → List TxInput → Except ChainError (List UtxoId)
  | spent, [] => .ok spent
  | spent, inp :: rest =>
    let uid : UtxoId := ⟨inp.prev_tx_hash, inp.output_index⟩
    if uid ∈ spent then .error .DoubleSpend
    else if ¬ mapContains uid s.utxos then .error .MissingUtxo
    else checkInputs s (uid :: spent) rest

/-- The non-coinbase loop of `validate_block_transactions`. -/
def checkRest (E : Env) (s : Blockchain) :
    List UtxoId → List Transaction → Except ChainError Unit
  | _, [] => .ok ()
  | spent, tx :: rest => do
    let spent' ← checkInputs s spent tx.inputs
    (Transaction.validate E tx).mapError ChainError.TxErr
    checkRest E s spent' rest

/-- `Blockchain::validate_block_transactions`. -/
def validate_block_transactions (E : Env) (s : Blockchain) (b : Block) :
    Except ChainError Unit :=
  match b.transactions with
  | [] => .error .NoTransactions
  | coinbase :: rest =>
    if coinbase.tx_type ≠ TxType.Coinbase then .error .NoCoinbase
    else
      let rw := rewards_for_height b.header.height
      if coinbase.outputs.length < 3 ∧ b.header.height > 0 then
        .error .InvalidCoinbaseAmount
      else
        let total_reward := rw.1 + rw.2.1 + rw.2.2
        let coinbase_amount := (coinbase.outputs.map (fun o => o.amount)).sum
        if coinbase_amount > total_reward then .error .InvalidCoinbaseAmount
        else
          let solidarityCheck : Except ChainError Unit :=
            if coinbase.outputs.length > 2 then
              let expected := find_smallest_beneficiary E s
              let actual := (coinbase.outputs.getD 2 ⟨0, []⟩).recipient
              if actual ≠ expected ∧ b.header.height > 0 then
                if b.header.height > 100 then
                  .error .InvalidSolidarityRecipient
                else .ok ()
              else .ok ()
            else .ok ()
          do
            solidarityCheck
            checkRest E s [] rest

/-- `Blockchain::next_difficulty`. -/
def next_difficulty (E : Env) (s : Blockchain) : Nat :=
  calculate_next E s.current_difficulty s.block_times

/-- The mutation phase of `Blockchain::add_block` (everything after the
    last fallible statement of the source). -/
def applyBlock (E : Env) (s : Blockchain) (b : Block) : Blockchain :=
  let block_hash := headerHash E b.header
  let timestamp := b.header.timestamp
  let utxos := b.transactions.foldl
    (fun u tx =>
      let u := tx.inputs.foldl
        (fun u inp => mapRemove ⟨inp.prev_tx_hash, inp.output_index⟩ u) u
      let tx_hash := txHash E tx
      tx.outputs.enum.foldl (fun u p => mapInsert ⟨tx_hash, p.1⟩ p.2 u) u)
    s.utxos
  let bt := s.block_times ++ [(s.height + 1, timestamp)]
  let bt := if bt.length > DIFFICULTY_AVERAGING_WINDOW * 2 then bt.drop 1
            else bt
  { blocks := mapInsert block_hash b s.blocks
    height_index := mapInsert (s.height + 1) block_hash s.height_index
    tip := block_hash
    height := s.height + 1
    utxos := utxos
    block_times := bt
    treasury_address := s.treasury_address
    current_difficulty := calculate_next E s.current_difficulty bt }

/-- `Blockchain::add_block`: the prev-hash, height and difficulty guards,
    block-structural validation and transaction validation, in source
    order; every fallible step of the source precedes the first mutation,
    so the function returns either the untouched `s` alongside the error
    or the fully applied successor state. -/
def add_block (E : Env) (s : Blockchain) (b : Block) :
    Except ChainError Blockchain :=
  if b.header.prev_hash ≠ s.tip then .error .InvalidPrevHash
  else if b.header.height ≠ s.height + 1 then .error .InvalidHeight
  else if b.header.difficulty ≠ next_difficulty E s then
    .error .InvalidDifficulty
  else
    match Block.validate E b with
    | .error e => .error (ChainError.BlockErr e)
    | .ok _ =>
      match validate_block_transactions E s b with
      | .error e => .error e
      | .ok _ => .ok (applyBlock E s b)

/-- `add_block` seen through its Rust signature `&mut self → Result`:
    the state after the call next to the returned value. -/
def add_block_mut (E : Env) (s : Blockchain) (b : Block) :
    Except ChainError Unit × Blockchain :=
  match add_block E s b with
  | .ok s' => (.ok (), s')
  | .error e => (.error e, s)

/-- States reachable from `Blockchain::new` by successful `add_block`
    calls (the clock readings of `new` are arbitrary). -/
inductive Reachable (E : Env) : Blockchain → Prop where
  | genesis (txNow hdrNow : Int) : Reachable E (Blockchain.new E txNow hdrNow)
  | step {s b s'} : Reachable E s → add_block E s b = .ok s' → Reachable E s'

/-! ### Consensus crate: target derivation and the AequiHash op program -/

/-- `pow.rs` `difficulty_to_target`: big-endian bytes of
    `(2^256 − 1) / difficulty`, right-aligned in 32 bytes; all-0xff on a
    zero difficulty. -/
def difficulty_to_target (difficulty : Nat) : List Nat :=
  if difficulty = 0 then List.replicate 32 255
  else
    let target := (2 ^ 256 - 1) / difficulty
    let target_bytes := (Nat.digits 256 target).reverse
    List.replicate (32 - min target_bytes.length 32) 0
      ++ target_bytes.take (min target_bytes.length 32)

/-- `aequihash.rs` `MathOp`. -/
inductive MathOp where
  | Add
  | Mul
  | Sub
  | Xor
  | RotL
  | RotR
  | And
  | Or
  deriving DecidableEq, Repr

/-- `MathOp::from_seed` (defined in the source, unused by the program
    generator). -/
def MathOp.from_seed (seed : Nat) : MathOp :=
  match seed % 8 with
  | 0 => .Add
  | 1 => .Mul
  | 2 => .Sub
  | 3 => .Xor
  | 4 => .RotL
  | 5 => .RotR
  | 6 => .And
  | _ => .Or

/-- `MathOp::execute` on u32 values (wrapping arithmetic, shift mod 32). -/
def MathOp.execute (op : MathOp) (a b : Nat) : Nat :=
  match op with
  | .Add => (a + b) % 2 ^ 32
  | .Mul => (a * b) % 2 ^ 32
  | .Sub => (a + 2 ^ 32 - b % 2 ^ 32) % 2 ^ 32
  | .Xor => Nat.xor a b % 2 ^ 32
  | .RotL => (a * 2 ^ (b % 32) % 2 ^ 32 + a / 2 ^ (32 - b % 32)) % 2 ^ 32
  | .RotR => (a / 2 ^ (b % 32) + a * 2 ^ (32 - b % 32) % 2 ^ 32) % 2 ^ 32
  | .And => Nat.land a b % 2 ^ 32
  | .Or => Nat.lor a b % 2 ^ 32

/-- `aequihash.rs` `MIX_ROUNDS`. -/
def MIX_ROUNDS : Nat := 64

/-- `AequiHash::generate_gpu_optimized_ops`: the source binds
    `seed_byte = seed[i % 32]` but never uses it; each entry depends only
    on `(i / 8) % 4`. -/
def generate_gpu_optimized_ops (seed : List Nat) : List MathOp :=
  (List.range MIX_ROUNDS).map fun i =>
    let s := seed.getD (i % 32) 0
    let cycle_pattern := (i / 8) % 4
    let _ := s
    match cycle_pattern with
    | 0 => MathOp.Add
    | 1 => MathOp.Mul
    | 2 => MathOp.Xor
    | 3 => MathOp.RotL
    | _ => MathOp.Add

/-- ASCII bytes of "AequiHash Epoch Seed". -/
def aequihashEpochSeedTag : List Nat :=
  [65, 101, 113, 117, 105, 72, 97, 115, 104, 32, 69, 112, 111, 99, 104,
   32, 83, 101, 101, 100]

/-- `AequiHash::compute_epoch_seed`: Keccak over the tag and the LE64
    epoch number. -/
def compute_epoch_seed (E : Env) (epoch : Nat) : List Nat :=
  E.keccak (aequihashEpochSeedTag ++ natToBytesLE 8 epoch)

/-! ### Claim C3: the two hash/target comparisons -/

theorem bytesToNat_reverse (l : List Nat) :
    bytesToNat l.reverse = bytesToNatLE l := by
  have := bytesToNatLE_reverse l.reverse
  simpa [List.reverse_reverse] using this.symm

theorem lexLE_refl : ∀ l : List Nat, lexLE l l = true
  | [] => rfl
  | a :: rest => by simp [lexLE, lexLE_refl rest]

theorem lexLE_append_single (l : List Nat) (a b : Nat) :
    lexLE (l ++ [a]) (l ++ [b])
      = if a < b then true else if b < a then false else true := by
  induction l with
  | nil => simp [lexLE]
  | cons c cs ih => simp [lexLE, ih]

theorem hash_less_or_equal_eq_decide_le {a b : List Nat}
    (hlen : a.length = b.length) (ha : ∀ x ∈ a, x < 256)
    (hb : ∀ x ∈ b, x < 256) :
    hash_less_or_equal a b = decide (bytesToNat a ≤ bytesToNat b) :=
  lexLE_eq_decide_le hlen ha hb

theorem compare_hash_to_target_eq_decide_le {h t : List Nat}
    (hlen : h.length = t.length) (hh : ∀ x ∈ h, x < 256)
    (ht : ∀ x ∈ t, x < 256) :
    compare_hash_to_target h t
      = decide (bytesToNatLE h ≤ bytesToNatLE t) := by
  have hlen' : h.reverse.length = t.reverse.length := by
    simpa using hlen
  have hh' : ∀ x ∈ h.reverse, x < 256 := fun x hx =>
    hh x (List.mem_reverse.mp hx)
  have ht' : ∀ x ∈ t.reverse, x < 256 := fun x hx =>
    ht x (List.mem_reverse.mp hx)
  have := lexLE_eq_decide_le hlen' hh' ht'
  simpa [compare_hash_to_target, bytesToNat_reverse] using this

/-- C3, corrected. `AequiHash::compare_hash_to_target` scans from byte 31
    (the least significant byte of the big-endian reading) down to byte 0,
    so it decides the little-endian numeric order, while
    `hash_less_or_equal` scans from byte 0 and decides the big-endian
    numeric order; on the spec's three test vectors (equal arrays, last
    byte incremented, last byte decremented) the two agree and behave as
    the claim states. -/
theorem compare_hash_to_target_endianness :
    (∀ h t : List Nat, h.length = t.length → (∀ x ∈ h, x < 256) →
      (∀ x ∈ t, x < 256) →
      compare_hash_to_target h t = decide (bytesToNatLE h ≤ bytesToNatLE t)
        ∧ hash_less_or_equal h t = decide (bytesToNat h ≤ bytesToNat t))
    ∧ (∀ t : List Nat,
        compare_hash_to_target t t = true ∧ hash_less_or_equal t t = true)
    ∧ (∀ (l : List Nat) (c : Nat),
        compare_hash_to_target (l ++ [c + 1]) (l ++ [c]) = false
          ∧ compare_hash_to_target (l ++ [c]) (l ++ [c + 1]) = true
          ∧ hash_less_or_equal (l ++ [c + 1]) (l ++ [c]) = false
          ∧ hash_less_or_equal (l ++ [c]) (l ++ [c + 1]) = true) := by
  refine ⟨fun h t hlen hh ht => ⟨compare_hash_to_target_eq_decide_le hlen hh ht,
      hash_less_or_equal_eq_decide_le hlen hh ht⟩, fun t => ⟨?_, ?_⟩, ?_⟩
  · simp [compare_hash_to_target, lexLE_refl]
  · simp [hash_less_or_equal, lexLE_refl]
  · intro l c
    refine ⟨?_, ?_, ?_, ?_⟩
    · simp [compare_hash_to_target, lexLE]
    · simp [compare_hash_to_target, lexLE]
    · simp [hash_less_or_equal, lexLE_append_single]
    · simp [hash_less_or_equal, lexLE_append_single]

/-- Witness for `compare_hash_to_target_endianness` at concrete 32-byte
    arrays. -/
theorem compare_hash_to_target_endianness_witness :
    compare_hash_to_target (List.replicate 32 0) (List.replicate 32 5)
        = decide (bytesToNatLE (List.replicate 32 0)
            ≤ bytesToNatLE (List.replicate 32 5))
      ∧ hash_less_or_equal (List.replicate 32 0) (List.replicate 32 5)
        = decide (bytesToNat (List.replicate 32 0)
            ≤ bytesToNat (List.replicate 32 5)) :=
  compare_hash_to_target_endianness.1 (List.replicate 32 0)
    (List.replicate 32 5) (by simp)
    (by intro x hx; simp_all) (by intro x hx; simp_all)

/-- C3 counterexample: on hash `0x01 00…00` and target `00…00 0x01` the
    comparison used by `AequiHash::verify` answers `true` although the
    hash is numerically larger big-endian, and `hash_less_or_equal`
    answers `false`: the two comparisons do not agree. -/
theorem compare_hash_to_target_disagrees_big_endian :
    compare_hash_to_target (1 :: List.replicate 31 0)
        (List.replicate 31 0 ++ [1]) = true
      ∧ hash_less_or_equal (1 :: List.replicate 31 0)
        (List.replicate 31 0 ++ [1]) = false
      ∧ bytesToNat (List.replicate 31 0 ++ [1])
        < bytesToNat (1 :: List.replicate 31 0) := by
  exact ⟨by decide, by decide, by decide⟩

/-! ### Claim C2: the PoW check of block validation -/

theorem bytesToNatLE_eq_ofDigits (l : List Nat) :
    bytesToNatLE l = Nat.ofDigits 256 l := by
  induction l with
  | nil => simp [bytesToNatLE, Nat.ofDigits]
  | cons b rest ih => simp [bytesToNatLE, Nat.ofDigits, ih]

theorem bytesToNat_replicate_zero_append (k : Nat) (l : List Nat) :
    bytesToNat (List.replicate k 0 ++ l) = bytesToNat l := by
  induction k with
  | zero => simp
  | succ k ih =>
    simp only [List.replicate_succ, List.cons_append, bytesToNat]
    simpa using ih

theorem digits256_len_le {t : Nat} (ht : t < 256 ^ 32) :
    (Nat.digits 256 t).length ≤ 32 := by
  rcases Nat.eq_zero_or_pos t with rfl | hpos
  · simp
  · by_contra hgt
    push_neg at hgt
    have h1 : 256 ^ (Nat.digits 256 t).length ≤ 256 * t :=
      Nat.base_pow_length_digits_le 256 t (by norm_num)
        (Nat.pos_iff_ne_zero.mp hpos)
    have h2 : (256 : Nat) ^ 33 ≤ 256 ^ (Nat.digits 256 t).length :=
      Nat.pow_le_pow_right (by norm_num) hgt
    have h3 : (256 : Nat) * t < 256 * 256 ^ 32 :=
      mul_lt_mul_of_pos_left ht (by norm_num)
    have h4 : (256 : Nat) * 256 ^ 32 = 256 ^ 33 := by ring
    have h5 : (256 : Nat) ^ 33 ≤ 256 * t := le_trans h2 h1
    rw [h4] at h3
    exact absurd h3 (not_lt.mpr h5)

theorem natToBytesLE_length (k n : Nat) : (natToBytesLE k n).length = k := by
  induction k generalizing n with
  | zero => rfl
  | succ k ih => simp [natToBytesLE, ih]

theorem natToBytesLE_bounds (k n : Nat) :
    ∀ x ∈ natToBytesLE k n, x < 256 := by
  induction k generalizing n with
  | zero => simp [natToBytesLE]
  | succ k ih =>
    intro x hx
    simp only [natToBytesLE, List.mem_cons] at hx
    rcases hx with rfl | hx
    · exact Nat.mod_lt _ (by norm_num)
    · exact ih _ x hx

theorem bytesToNat_natToBytesBE {k v : Nat} (hv : v < 256 ^ k) :
    bytesToNat (natToBytesBE k v) = v := by
  unfold natToBytesBE
  rw [← bytesToNatLE_reverse, List.reverse_reverse,
    bytesToNatLE_natToBytesLE, Nat.mod_eq_of_lt hv]

theorem difficulty_to_target_length {d : Nat} (hd : 0 < d) :
    (difficulty_to_target d).length = 32 := by
  have hlt : (2 ^ 256 - 1) / d < 256 ^ 32 := by
    have h1 : (2 ^ 256 - 1) / d ≤ 2 ^ 256 - 1 := Nat.div_le_self _ _
    have h2 : (2 : Nat) ^ 256 = 256 ^ 32 := by norm_num
    omega
  have hlen := digits256_len_le hlt
  simp only [difficulty_to_target, hd.ne', if_false, List.length_append,
    List.length_replicate, List.length_take, List.length_reverse]
  omega

theorem difficulty_to_target_bounds (d : Nat) :
    ∀ x ∈ difficulty_to_target d, x < 256 := by
  intro x hx
  simp only [difficulty_to_target] at hx
  split at hx
  · simp only [List.mem_replicate] at hx
    omega
  · simp only [List.mem_append, List.mem_replicate] at hx
    rcases hx with hx | hx
    · omega
    · have hx2 : x ∈ (Nat.digits 256 ((2 ^ 256 - 1) / d)).reverse :=
        List.take_subset _ _ hx
      exact Nat.digits_lt_base (by norm_num) (List.mem_reverse.mp hx2)

theorem difficulty_to_target_value {d : Nat} (hd : 0 < d) :
    bytesToNat (difficulty_to_target d) = (2 ^ 256 - 1) / d := by
  have hlt : (2 ^ 256 - 1) / d < 256 ^ 32 := by
    have h1 : (2 ^ 256 - 1) / d ≤ 2 ^ 256 - 1 := Nat.div_le_self _ _
    have h2 : (2 : Nat) ^ 256 = 256 ^ 32 := by norm_num
    omega
  have hlen := digits256_len_le hlt
  have hmin : min (Nat.digits 256 ((2 ^ 256 - 1) / d)).reverse.length 32
      = (Nat.digits 256 ((2 ^ 256 - 1) / d)).reverse.length := by
    simp only [List.length_reverse]
    omega
  simp only [difficulty_to_target, hd.ne', if_false, hmin, List.take_length]
  rw [bytesToNat_replicate_zero_append, ← bytesToNatLE_reverse,
    List.reverse_reverse, bytesToNatLE_eq_ofDigits, Nat.ofDigits_digits]

/-- C2, corrected. The proof-of-work check that `add_block` performs
    (`BlockHeader::meets_difficulty`) reads the first 8 bytes of the
    Keccak-256 header hash as a big-endian u64 and accepts iff that value
    is at most `u64::MAX / difficulty` — equivalently, iff those 8 bytes
    are byte-wise below the 8-byte big-endian encoding of that 64-bit
    quotient. The 32-byte target `floor((2^256 − 1)/difficulty)` of
    `pow.rs` `difficulty_to_target` (second conjunct) belongs to the
    separate AequiHash verification path, which block validation does not
    invoke. -/
theorem meets_difficulty_u64_semantics :
    (∀ (E : Env) (h : BlockHeader), (headerHash E h).length = 32 →
      (∀ x ∈ headerHash E h, x < 256) →
      meets_difficulty E h
        = hash_less_or_equal ((headerHash E h).take 8)
            (natToBytesBE 8 ((2 ^ 64 - 1) / h.difficulty)))
    ∧ (∀ d : Nat, 0 < d →
        bytesToNat (difficulty_to_target d) = (2 ^ 256 - 1) / d) := by
  constructor
  · intro E h hlen hb
    have hv : (2 ^ 64 - 1) / h.difficulty < 256 ^ 8 := by
      have h1 : (2 ^ 64 - 1) / h.difficulty ≤ 2 ^ 64 - 1 :=
        Nat.div_le_self _ _
      have h2 : (2 : Nat) ^ 64 = 256 ^ 8 := by norm_num
      omega
    have hlen1 : ((headerHash E h).take 8).length
        = (natToBytesBE 8 ((2 ^ 64 - 1) / h.difficulty)).length := by
      simp [List.length_take, hlen, natToBytesBE, natToBytesLE_length]
    have hb1 : ∀ x ∈ (headerHash E h).take 8, x < 256 := fun x hx =>
      hb x (List.take_subset _ _ hx)
    have hb2 : ∀ x ∈ natToBytesBE 8 ((2 ^ 64 - 1) / h.difficulty),
        x < 256 := by
      intro x hx
      exact natToBytesLE_bounds _ _ x (List.mem_reverse.mp hx)
    rw [hash_less_or_equal_eq_decide_le hlen1 hb1 hb2,
      bytesToNat_natToBytesBE hv]
    rfl
  · exact fun d hd => difficulty_to_target_value hd

/-- Environment instantiation for the C2 counterexample: the external
    Keccak returns `0x55 ×8 ‖ 0xff ×24` on every input. -/
def cexEnvC2 : Env where
  keccak := fun _ => List.replicate 8 85 ++ List.replicate 24 255
  serTx := fun _ => []
  serHeader := fun _ => []
  validKey := fun _ => true
  verifySig := fun _ _ _ => true
  fAdj := fun c _ _ => c
  hmOrder := id

/-- Header for the C2 counterexample, difficulty 3. -/
def cexHeaderC2 : BlockHeader where
  version := 1
  prev_hash := List.replicate 32 0
  merkle_root := List.replicate 32 0
  timestamp := 0
  difficulty := 3
  nonce := 0
  height := 1
  extra_data := List.replicate 32 0

/-- C2 counterexample: under a Keccak giving the header hash
    `0x5555555555555555ffff…ff` and difficulty 3, `meets_difficulty`
    accepts (its 64-bit reading equals `u64::MAX/3`), yet that very hash
    is strictly above the 256-bit target `floor((2^256−1)/3)`, so the
    claimed inequality `hash ≤ difficulty_to_target difficulty` fails for
    the accepted header. -/
theorem meets_difficulty_not_256bit_target :
    meets_difficulty cexEnvC2 cexHeaderC2 = true
      ∧ hash_less_or_equal (headerHash cexEnvC2 cexHeaderC2)
          (difficulty_to_target cexHeaderC2.difficulty) = false := by
  constructor
  · decide
  · have hd3 : (0 : Nat) < 3 := by norm_num
    have hlen : (headerHash cexEnvC2 cexHeaderC2).length
        = (difficulty_to_target 3).length := by
      rw [difficulty_to_target_length hd3]
      decide
    have hh : ∀ x ∈ headerHash cexEnvC2 cexHeaderC2, x < 256 := by decide
    have hcmp := hash_less_or_equal_eq_decide_le hlen hh
      (difficulty_to_target_bounds 3)
    rw [show cexHeaderC2.difficulty = 3 from rfl, hcmp,
      difficulty_to_target_value hd3]
    decide

/-- Witness for `meets_difficulty_u64_semantics` at a concrete
    environment, header and difficulty. -/
theorem meets_difficulty_u64_semantics_witness :
    meets_difficulty cexEnvC2 cexHeaderC2
        = hash_less_or_equal ((headerHash cexEnvC2 cexHeaderC2).take 8)
            (natToBytesBE 8 ((2 ^ 64 - 1) / cexHeaderC2.difficulty))
      ∧ bytesToNat (difficulty_to_target 1000) = (2 ^ 256 - 1) / 1000 :=
  ⟨meets_difficulty_u64_semantics.1 cexEnvC2 cexHeaderC2 (by decide)
      (by decide),
    meets_difficulty_u64_semantics.2 1000 (by norm_num)⟩

/-! ### Claim C4: the AequiHash operation program -/

/-- C4 (code bug in the source): the operation program that
    `AequiHash::new` installs is the same fixed 64-entry sequence for
    every epoch seed — the bound seed byte is never consulted — and it
    draws only on the 4 variants Add, Mul, Xor, RotL, never on Sub, RotR,
    And or Or; evaluated at the concrete distinct seeds `[0; 32]` and
    `[1; 32]` (epochs with different seeds) the programs coincide. -/
theorem generate_gpu_optimized_ops_seed_independent :
    (∀ s₁ s₂ : List Nat,
      generate_gpu_optimized_ops s₁ = generate_gpu_optimized_ops s₂)
    ∧ generate_gpu_optimized_ops (List.replicate 32 0)
        = generate_gpu_optimized_ops (List.replicate 32 1)
    ∧ (generate_gpu_optimized_ops (List.replicate 32 0)).length = 64
    ∧ MathOp.Sub ∉ generate_gpu_optimized_ops (List.replicate 32 0)
    ∧ MathOp.RotR ∉ generate_gpu_optimized_ops (List.replicate 32 0)
    ∧ MathOp.And ∉ generate_gpu_optimized_ops (List.replicate 32 0)
    ∧ MathOp.Or ∉ generate_gpu_optimized_ops (List.replicate 32 0) :=
  ⟨fun _ _ => rfl, rfl, by decide, by decide, by decide, by decide,
    by decide⟩

/-! ### Claims C6 and C10: add_block guards, atomicity, reachable
difficulty -/

theorem add_block_ok_inv {E : Env} {s : Blockchain} {b : Block}
    {s' : Blockchain} (h : add_block E s b = .ok s') :
    s' = applyBlock E s b ∧ b.header.prev_hash = s.tip
      ∧ b.header.height = s.height + 1
      ∧ b.header.difficulty = next_difficulty E s := by
  unfold add_block at h
  split at h
  · cases h
  next h1 =>
    split at h
    · cases h
    next h2 =>
      split at h
      · cases h
      next h3 =>
        push_neg at h1 h2 h3
        split at h
        · cases h
        · split at h
          · cases h
          · cases h
            exact ⟨rfl, h1, h2, h3⟩

theorem calculate_next_ge_min (E : Env) (current : Nat)
    (times : List (Nat × Int)) (hc : MIN_DIFFICULTY ≤ current) :
    MIN_DIFFICULTY ≤ calculate_next E current times := by
  unfold calculate_next
  split
  · exact hc
  · dsimp only
    split
    · exact hc
    · exact Nat.le_max_right _ _

theorem accepted_block_facts {E : Env} {s : Blockchain} {b : Block}
    {s' : Blockchain} (hmin : MIN_DIFFICULTY ≤ s.current_difficulty)
    (h : add_block E s b = .ok s') :
    b.header.difficulty = next_difficulty E s
      ∧ MIN_DIFFICULTY ≤ b.header.difficulty
      ∧ MIN_DIFFICULTY ≤ s'.current_difficulty := by
  obtain ⟨hs', _, _, hdiff⟩ := add_block_ok_inv h
  have hnext : MIN_DIFFICULTY ≤ next_difficulty E s :=
    calculate_next_ge_min E _ _ hmin
  refine ⟨hdiff, hdiff ▸ hnext, ?_⟩
  rw [hs']
  exact calculate_next_ge_min E _ _ hmin

/-- C10, confirmed. In every state reachable from `Blockchain::new` by
    successful `add_block` calls the current difficulty is at least
    `MIN_DIFFICULTY = 1000`; a block `add_block` accepts from such a
    state has `header.difficulty` equal to the expected next difficulty
    (checked before the proof-of-work step), hence at least 1000 and in
    particular positive, so the division `u64::MAX / difficulty` inside
    `meets_difficulty` never divides by zero on this path. -/
theorem reachable_difficulty_positive (E : Env) (s : Blockchain)
    (hs : Reachable E s) :
    MIN_DIFFICULTY ≤ s.current_difficulty
      ∧ ∀ b s', add_block E s b = .ok s' →
          b.header.difficulty = next_difficulty E s
            ∧ MIN_DIFFICULTY ≤ b.header.difficulty
            ∧ 0 < b.header.difficulty := by
  induction hs with
  | genesis txNow hdrNow =>
    have hmin : MIN_DIFFICULTY
        ≤ (Blockchain.new E txNow hdrNow).current_difficulty := by
      show MIN_DIFFICULTY ≤ INITIAL_DIFFICULTY
      norm_num [MIN_DIFFICULTY, INITIAL_DIFFICULTY]
    refine ⟨hmin, fun b s' hab => ?_⟩
    obtain ⟨hd, hd2, _⟩ := accepted_block_facts hmin hab
    exact ⟨hd, hd2, lt_of_lt_of_le (by norm_num [MIN_DIFFICULTY]) hd2⟩
  | step hr hab ih =>
    have hmin := (accepted_block_facts ih.1 hab).2.2
    refine ⟨hmin, fun b s' hab2 => ?_⟩
    obtain ⟨hd, hd2, _⟩ := accepted_block_facts hmin hab2
    exact ⟨hd, hd2, lt_of_lt_of_le (by norm_num [MIN_DIFFICULTY]) hd2⟩

/-- A simple concrete environment for witnesses: constant Keccak, empty
    serialisations, accepting signature checks, identity float segment
    and identity map order. -/
def idEnv : Env where
  keccak := fun _ => List.replicate 32 0
  serTx := fun _ => []
  serHeader := fun _ => []
  validKey := fun _ => true
  verifySig := fun _ _ _ => true
  fAdj := fun c _ _ => c
  hmOrder := id

/-- Witness for `reachable_difficulty_positive` at the genesis state of a
    concrete environment. -/
theorem reachable_difficulty_positive_witness :
    MIN_DIFFICULTY ≤ (Blockchain.new idEnv 0 0).current_difficulty :=
  (reachable_difficulty_positive idEnv (Blockchain.new idEnv 0 0)
    (Reachable.genesis 0 0)).1

/-- C6, confirmed. In the source every fallible step of `add_block`
    (prev-hash, height and difficulty guards, `Block::validate`,
    `validate_block_transactions`) precedes the first mutation of `self`,
    which the embedding renders by `add_block_mut` returning the input
    state next to any error: a rejection leaves every field of the ledger
    (blocks, height index, tip, height, UTXO map, block-time ring,
    difficulty) unchanged, and a block whose `prev_hash` differs from the
    tip is rejected with `InvalidPrevHash` before any other check. -/
theorem add_block_mut_atomic :
    (∀ (E : Env) (s : Blockchain) (b : Block) (e : ChainError)
        (s' : Blockchain),
      add_block_mut E s b = (.error e, s') → s' = s)
    ∧ (∀ (E : Env) (s : Blockchain) (b : Block),
        b.header.prev_hash ≠ s.tip →
          add_block_mut E s b = (.error .InvalidPrevHash, s)) := by
  constructor
  · intro E s b e s' h
    unfold add_block_mut at h
    cases hab : add_block E s b with
    | ok s2 => rw [hab] at h; cases h
    | error e2 => rw [hab] at h; cases h; rfl
  · intro E s b hne
    unfold add_block_mut add_block
    rw [if_pos hne]

/-- A block whose `prev_hash` cannot match: the tip under `idEnv` is the
    all-zero Keccak image, the block names `0xff ×32`. -/
def mismatchBlock : Block where
  header :=
    { version := 1
      prev_hash := List.replicate 32 255
      merkle_root := List.replicate 32 0
      timestamp := 0
      difficulty := INITIAL_DIFFICULTY
      nonce := 0
      height := 1
      extra_data := List.replicate 32 0 }
  transactions := []

/-- Witness for `add_block_mut_atomic`: a concrete mismatching block
    against the genesis state is rejected with `InvalidPrevHash` and the
    state is returned unchanged. -/
theorem add_block_mut_atomic_witness :
    add_block_mut idEnv (Blockchain.new idEnv 0 0) mismatchBlock
      = (.error .InvalidPrevHash, Blockchain.new idEnv 0 0) := by
  have hne : mismatchBlock.header.prev_hash
      ≠ (Blockchain.new idEnv 0 0).tip := by decide
  exact add_block_mut_atomic.2 idEnv (Blockchain.new idEnv 0 0)
    mismatchBlock hne

/-! ### Claim C8: Merkle proofs verify against the root -/

theorem merkleLevel_getD (hp : List Nat → List Nat → List Nat) :
    ∀ (l : List (List Nat)) (k : Nat), 2 * k < l.length →
    (merkleLevel hp l).getD k []
      = if 2 * k + 1 < l.length then
          hp (l.getD (2 * k) []) (l.getD (2 * k + 1) [])
        else hp (l.getD (2 * k) []) (l.getD (2 * k) [])
  | [], k, h => by simp at h
  | [a], k, h => by
    have hk : k = 0 := by simp at h; omega
    subst hk
    simp [merkleLevel]
  | a :: b :: rest, 0, h => by simp [merkleLevel]
  | a :: b :: rest, k + 1, h => by
    have h2 : 2 * k < rest.length := by
      simp only [List.length_cons] at h
      omega
    have ih := merkleLevel_getD hp rest k h2
    have e1 : (a :: b :: rest).getD (2 * (k + 1)) [] = rest.getD (2 * k) [] := by
      have he : 2 * (k + 1) = 2 * k + 1 + 1 := by ring
      rw [he, List.getD_cons_succ, List.getD_cons_succ]
    have e2 : (a :: b :: rest).getD (2 * (k + 1) + 1) []
        = rest.getD (2 * k + 1) [] := by
      have he : 2 * (k + 1) + 1 = 2 * k + 1 + 1 + 1 := by ring
      rw [he, List.getD_cons_succ, List.getD_cons_succ]
    show (hp a b :: merkleLevel hp rest).getD (k + 1) [] = _
    rw [List.getD_cons_succ, ih]
    by_cases hc : 2 * k + 1 < rest.length
    · rw [if_pos hc, if_pos (by simp only [List.length_cons]; omega), e1, e2]
    · rw [if_neg hc, if_neg (by simp only [List.length_cons]; omega), e1]

theorem proofStep_combine (hp : List Nat → List Nat → List Nat)
    (l : List (List Nat)) (idx : Nat) (h : idx < l.length) :
    (if (proofStep l idx).2 then hp (l.getD idx []) (proofStep l idx).1
      else hp (proofStep l idx).1 (l.getD idx []))
      = (merkleLevel hp l).getD (idx / 2) [] := by
  rcases Nat.mod_two_eq_zero_or_one idx with hm | hm
  · have hidx : 2 * (idx / 2) = idx := by omega
    by_cases hc : idx + 1 < l.length
    · have hps : proofStep l idx = (l.getD (idx + 1) [], true) := by
        simp [proofStep, hm, hc]
      rw [hps]
      show hp (l.getD idx []) (l.getD (idx + 1) []) = _
      rw [merkleLevel_getD hp l (idx / 2) (by omega),
        if_pos (by omega), hidx]
    · have hps : proofStep l idx = (l.getD idx [], true) := by
        simp [proofStep, hm, hc]
      rw [hps]
      show hp (l.getD idx []) (l.getD idx []) = _
      rw [merkleLevel_getD hp l (idx / 2) (by omega),
        if_neg (by omega), hidx]
  · have hps : proofStep l idx = (l.getD (idx - 1) [], false) := by
      simp [proofStep, hm]
    rw [hps]
    show hp (l.getD (idx - 1) []) (l.getD idx []) = _
    have h2 : 2 * (idx / 2) = idx - 1 := by omega
    have h3 : 2 * (idx / 2) + 1 = idx := by omega
    rw [merkleLevel_getD hp l (idx / 2) (by omega), if_pos (by omega),
      h3, h2]

theorem buildPath_fold (hp : List Nat → List Nat → List Nat) :
    ∀ (l : List (List Nat)) (idx : Nat), idx < l.length →
    (buildPath hp l idx).foldl
      (fun current sb => if sb.2 then hp current sb.1 else hp sb.1 current)
      (l.getD idx []) = merkleReduce hp l
  | [], idx, h => by simp at h
  | [a], idx, h => by
    have hk : idx = 0 := by simp at h; omega
    subst hk
    simp [buildPath, merkleReduce]
  | a :: b :: rest, idx, h => by
    rw [buildPath, List.foldl_cons,
      proofStep_combine hp (a :: b :: rest) idx h]
    have hlt : idx / 2 < (merkleLevel hp (a :: b :: rest)).length := by
      rw [merkleLevel_length]
      simp only [List.length_cons] at h ⊢
      omega
    rw [buildPath_fold hp (merkleLevel hp (a :: b :: rest)) (idx / 2) hlt]
    conv_rhs => rw [merkleReduce]
termination_by l _ _ => l.length
decreasing_by
  simp only [merkleLevel_length, List.length_cons]
  omega

/-- C8, confirmed. For every non-empty transaction list and every index
    `i` below its length, `build_merkle_proof` returns a proof whose
    fold per `MerkleProof::verify` reproduces `compute_merkle_root` of
    the list (odd levels pair the trailing element with itself), for
    every environment, i.e. every leaf-hash and pairing-hash function. -/
theorem build_merkle_proof_verifies (E : Env) (txs : List Transaction)
    (i : Nat) (hi : i < txs.length) :
    ∃ proof, build_merkle_proof E txs i = some proof
      ∧ MerkleProof.verify (hash_pair E) proof (compute_merkle_root E txs)
          = true := by
  have hne : txs ≠ [] := by
    intro hcon
    subst hcon
    simp at hi
  refine ⟨⟨(txs.map (txHash E)).getD i [],
    buildPath (hash_pair E) (txs.map (txHash E)) i⟩, ?_, ?_⟩
  · unfold build_merkle_proof
    rw [if_neg (Nat.not_le.mpr hi)]
  · unfold MerkleProof.verify compute_merkle_root
    rw [if_neg hne]
    have hlen : i < (txs.map (txHash E)).length := by simpa using hi
    have hfold := buildPath_fold (hash_pair E) (txs.map (txHash E)) i hlen
    rw [hfold]
    simp

/-- Three concrete transactions for the C8 witness. -/
def txsC8 : List Transaction :=
  [Transaction.coinbase [1] 5 0 0, Transaction.coinbase [2] 5 1 0,
    Transaction.coinbase [3] 5 2 0]

/-- Witness for `build_merkle_proof_verifies`: a concrete three-element
    list (odd level) at index 2. -/
theorem build_merkle_proof_verifies_witness :
    ∃ proof, build_merkle_proof idEnv txsC8 2 = some proof
      ∧ MerkleProof.verify (hash_pair idEnv) proof
          (compute_merkle_root idEnv txsC8) = true :=
  build_merkle_proof_verifies idEnv txsC8 2 (by decide)

/-! ### Claim C5: solidarity beneficiary selection -/

theorem minByBalance_ne_none {l : List (Address × Nat)} (h : l ≠ []) :
    ∃ p, minByBalance l = some p := by
  cases l with
  | nil => exact absurd rfl h
  | cons p rest =>
    simp only [minByBalance]
    cases minByBalance rest with
    | none => exact ⟨p, rfl⟩
    | some q => by_cases hpq : p.2 ≤ q.2 <;> simp [hpq]

theorem minByBalance_mem : ∀ {l : List (Address × Nat)} {p},
    minByBalance l = some p → p ∈ l
  | [], p, h => by simp [minByBalance] at h
  | q :: rest, p, h => by
    cases hr : minByBalance rest with
    | none =>
      simp only [minByBalance, hr] at h
      cases h
      exact List.mem_cons_self _ _
    | some r =>
      simp only [minByBalance, hr] at h
      by_cases hle : q.2 ≤ r.2
      · rw [if_pos hle] at h; cases h; exact List.mem_cons_self _ _
      · rw [if_neg hle] at h
        cases h
        exact List.mem_cons_of_mem _ (minByBalance_mem hr)

theorem minByBalance_le : ∀ {l : List (Address × Nat)} {p},
    minByBalance l = some p → ∀ q ∈ l, p.2 ≤ q.2
  | [], p, h => by simp [minByBalance] at h
  | a :: rest, p, h => by
    cases hr : minByBalance rest with
    | none =>
      simp only [minByBalance, hr] at h
      cases h
      intro q hq
      rcases List.mem_cons.mp hq with rfl | hq2
      · exact le_refl _
      · have hrest : rest = [] := by
          cases rest with
          | nil => rfl
          | cons y ys =>
            obtain ⟨w, hw⟩ := minByBalance_ne_none
              (List.cons_ne_nil y ys)
            rw [hw] at hr
            cases hr
        subst hrest
        simp at hq2
    | some r =>
      simp only [minByBalance, hr] at h
      have hrest := minByBalance_le hr
      by_cases hle : a.2 ≤ r.2
      · rw [if_pos hle] at h
        cases h
        intro q hq
        rcases List.mem_cons.mp hq with rfl | hq2
        · exact le_refl _
        · exact le_trans hle (hrest q hq2)
      · rw [if_neg hle] at h
        cases h
        intro q hq
        rcases List.mem_cons.mp hq with rfl | hq2
        · exact le_of_lt (lt_of_not_le hle)
        · exact hrest q hq2

theorem mem_mapInsertOrd : ∀ {m : List (Address × Nat)} {k : Address}
    {v : Nat} {p}, p ∈ mapInsertOrd k v m → p = (k, v) ∨ p ∈ m
  | [], k, v, p, h => by
    simp only [mapInsertOrd, List.mem_singleton] at h
    exact Or.inl h
  | (k', v') :: rest, k, v, p, h => by
    simp only [mapInsertOrd] at h
    by_cases hk : k' = k
    · rw [if_pos hk] at h
      rcases List.mem_cons.mp h with rfl | h2
      · exact Or.inl rfl
      · exact Or.inr (List.mem_cons_of_mem _ h2)
    · rw [if_neg hk] at h
      rcases List.mem_cons.mp h with rfl | h2
      · exact Or.inr (List.mem_cons_self _ _)
      · rcases mem_mapInsertOrd h2 with h3 | h3
        · exact Or.inl h3
        · exact Or.inr (List.mem_cons_of_mem _ h3)

theorem foldl_preserve {α β : Type} (P : β → Prop)
    (f : List β → α → List β)
    (hf : ∀ acc x, (∀ p ∈ acc, P p) → ∀ p ∈ f acc x, P p) :
    ∀ (xs : List α) (acc), (∀ p ∈ acc, P p) →
      ∀ p ∈ xs.foldl f acc, P p := by
  intro xs
  induction xs with
  | nil => exact fun acc h p hp => h p hp
  | cons x t ih =>
    intro acc h p hp
    rw [List.foldl_cons] at hp
    exact ih _ (hf acc x h) p hp

theorem minerBalances_balances (s : Blockchain) :
    ∀ p ∈ minerBalances s, p.2 = get_balance s p.1 := by
  unfold minerBalances
  refine foldl_preserve _ _ ?_ _ _ (by simp)
  intro acc x hacc p hp
  cases hb : get_block_at_height s x with
  | none => simp only [hb] at hp; exact hacc p hp
  | some block =>
    simp only [hb] at hp
    cases hc : block.transactions.head? with
    | none => simp only [hc] at hp; exact hacc p hp
    | some coinbase =>
      simp only [hc] at hp
      cases ho : coinbase.outputs.head? with
      | none => simp only [ho] at hp; exact hacc p hp
      | some output =>
        simp only [ho] at hp
        rcases mem_mapInsertOrd hp with rfl | h2
        · rfl
        · exact hacc p h2

/-- C5, corrected. `find_smallest_beneficiary` scans the blocks from
    `height − 100` (saturating) to the current height, collects the
    recipient of the first output of each block's first transaction with
    its total UTXO balance in the current ledger, and — for any iteration
    order the backing `HashMap` may produce, modelled as a permutation —
    returns a collected address of minimal balance, or the treasury
    address when nothing was collected. Which minimal address wins on a
    balance tie is the unspecified `HashMap` order, not insertion order. -/
theorem find_smallest_beneficiary_min_spec (E : Env) (s : Blockchain)
    (hπ : ∀ l : List (Address × Nat), (E.hmOrder l).Perm l) :
    (minerBalances s = [] →
      find_smallest_beneficiary E s = s.treasury_address)
    ∧ (minerBalances s ≠ [] →
        ∃ p, p ∈ minerBalances s ∧ find_smallest_beneficiary E s = p.1
          ∧ ∀ q ∈ minerBalances s, p.2 ≤ q.2)
    ∧ (∀ p ∈ minerBalances s, p.2 = get_balance s p.1) := by
  refine ⟨?_, ?_, minerBalances_balances s⟩
  · intro hmb
    have hord : E.hmOrder (minerBalances s) = [] := by
      rw [hmb]
      exact (hπ []).eq_nil
    simp [find_smallest_beneficiary, hord, minByBalance]
  · intro hmb
    have hord : E.hmOrder (minerBalances s) ≠ [] := by
      intro hcon
      have := hπ (minerBalances s)
      rw [hcon] at this
      exact hmb this.symm.eq_nil
    obtain ⟨p, hp⟩ := minByBalance_ne_none hord
    refine ⟨p, ?_, ?_, ?_⟩
    · exact ((hπ (minerBalances s)).mem_iff).mp (minByBalance_mem hp)
    · simp [find_smallest_beneficiary, hp]
    · intro q hq
      exact minByBalance_le hp q (((hπ (minerBalances s)).mem_iff).mpr hq)

/-- A block paying its coinbase's first output to `a` (for the C5
    counterexample state). -/
def blockC5 (a : Address) : Block where
  header :=
    { version := 1
      prev_hash := List.replicate 32 0
      merkle_root := List.replicate 32 0
      timestamp := 0
      difficulty := INITIAL_DIFFICULTY
      nonce := 0
      height := 0
      extra_data := List.replicate 32 0 }
  transactions := [Transaction.coinbase a 5 0 0]

/-- C5 counterexample state: two blocks whose coinbases pay addresses
    `[1]` and `[2]`, both with UTXO balance 0 — a balance tie. -/
def cexStateC5 : Blockchain where
  blocks := [([0], blockC5 [1]), ([1], blockC5 [2])]
  height_index := [(0, [0]), (1, [1])]
  tip := [1]
  height := 1
  utxos := []
  block_times := [(0, 0), (1, 30)]
  treasury_address := [9]
  current_difficulty := INITIAL_DIFFICULTY

/-- The C5 environment whose `HashMap` iterates in reversed insertion
    order — equally possible for `std::collections::HashMap`. -/
def revEnv : Env :=
  { idEnv with hmOrder := List.reverse }

/-- C5 counterexample: on a balance tie the returned beneficiary depends
    on the `HashMap` iteration order (both orders shown are permutations
    of the collected map): the run iterating in insertion order returns
    `[1]`, the run iterating in reversed order returns `[2]`, so the
    function is not a deterministic function of the ledger state with
    insertion-order tie-breaking. -/
theorem find_smallest_beneficiary_order_dependent :
    find_smallest_beneficiary idEnv cexStateC5 = [1]
      ∧ find_smallest_beneficiary revEnv cexStateC5 = [2]
      ∧ (∀ l : List (Address × Nat), (idEnv.hmOrder l).Perm l)
      ∧ (∀ l : List (Address × Nat), (revEnv.hmOrder l).Perm l)
      ∧ get_balance cexStateC5 [1] = get_balance cexStateC5 [2] := by
  refine ⟨by decide, by decide, fun l => List.Perm.refl l, fun l => ?_,
    by decide⟩
  exact List.reverse_perm l

/-- Witness for `find_smallest_beneficiary_min_spec` at the concrete
    tie state and the insertion-order environment. -/
theorem find_smallest_beneficiary_min_spec_witness :
    ∃ p, p ∈ minerBalances cexStateC5
      ∧ find_smallest_beneficiary idEnv cexStateC5 = p.1
      ∧ ∀ q ∈ minerBalances cexStateC5, p.2 ≤ q.2 :=
  (find_smallest_beneficiary_min_spec idEnv cexStateC5
    (fun l => List.Perm.refl l)).2.1 (by decide)

/-! ### Claim C1: value conservation under add_block -/

instance {e a : Type} [DecidableEq e] [DecidableEq a] :
    DecidableEq (Except e a) := fun x y =>
  match x, y with
  | .ok u, .ok v =>
    if h : u = v then .isTrue (by rw [h])
    else .isFalse (fun hc => h (by cases hc; rfl))
  | .error u, .error v =>
    if h : u = v then .isTrue (by rw [h])
    else .isFalse (fun hc => h (by cases hc; rfl))
  | .ok _, .error _ => .isFalse (fun hc => by cases hc)
  | .error _, .ok _ => .isFalse (fun hc => by cases hc)

/-- Environment for the C1 run: the Keccak image is the input padded or
    truncated to 32 bytes, a transaction serialises to its timestamp
    bytes (so distinct timestamps give distinct hashes), headers
    serialise to the empty string, and the owner's Ed25519 signatures
    verify. -/
def envC1 : Env where
  keccak := fun l => (l ++ List.replicate 32 0).take 32
  serTx := fun tx => intToBytesLE64 tx.timestamp
  serHeader := fun _ => []
  validKey := fun _ => true
  verifySig := fun _ _ _ => true
  fAdj := fun c _ _ => c
  hmOrder := id

/-- Coinbase of the C1 block: three one-unit outputs (well below the
    height-1 reward), so the coinbase rules pass. -/
def coinbaseTxC1 : Transaction where
  version := 1
  tx_type := TxType.Coinbase
  inputs := []
  outputs := [⟨1, [1]⟩, ⟨1, [2]⟩, ⟨1, [3]⟩]
  timestamp := 1
  memo := []

/-- Transfer of the C1 block: spends the 50 AEQ genesis UTXO and emits a
    single 100 AEQ output — twice the value it consumes. -/
def transferTxC1 : Transaction where
  version := 1
  tx_type := TxType.Transfer
  inputs := [⟨List.replicate 32 0, 0, List.replicate 64 1,
    List.replicate 32 1⟩]
  outputs := [⟨100000000000, [7]⟩]
  timestamp := 2
  memo := []

/-- The C1 block at height 1 on top of the genesis state. -/
def blockC1 : Block where
  header :=
    { version := 1
      prev_hash := List.replicate 32 0
      merkle_root := compute_merkle_root envC1 [coinbaseTxC1, transferTxC1]
      timestamp := 5
      difficulty := INITIAL_DIFFICULTY
      nonce := 0
      height := 1
      extra_data := List.replicate 32 0 }
  transactions := [coinbaseTxC1, transferTxC1]

/-- C1 (code bug in the source): starting from the genesis state, a
    block whose transfer spends the 50 AEQ genesis UTXO while emitting a
    100 AEQ output is accepted by `add_block` — neither
    `Transaction::validate` nor `validate_block_transactions` compares a
    transaction's output sum with the value of the UTXOs it spends (the
    `InsufficientFunds` variant of `TxError` is never produced). The UTXO
    sum afterwards is 100000000003 although the coinbase outputs accepted
    so far (genesis 50000000000 plus this block's 3) sum to 50000000003:
    the claimed invariant fails. -/
theorem add_block_inflates_supply :
    add_block envC1 (Blockchain.new envC1 0 0) blockC1
        = .ok (applyBlock envC1 (Blockchain.new envC1 0 0) blockC1)
      ∧ circulating_supply (Blockchain.new envC1 0 0) = 50000000000
      ∧ total_output coinbaseTxC1 = 3
      ∧ circulating_supply
          (applyBlock envC1 (Blockchain.new envC1 0 0) blockC1)
        = 100000000003 := by
  refine ⟨?_, by decide, by decide, by decide⟩
  have hval : Block.validate envC1 blockC1 = .ok () := by
    unfold Block.validate
    rw [if_neg (fun hcon => hcon rfl), if_neg (by decide)]
    decide
  have hvbt : validate_block_transactions envC1 (Blockchain.new envC1 0 0)
      blockC1 = .ok () := by decide
  unfold add_block
  rw [if_neg (by decide), if_neg (by decide), if_neg (by decide)]
  simp only [hval, hvbt]

/-! ### Claim C9: address textual encoding (`address.rs`) -/

/-- `address.rs` `AddressError`. -/
inductive AddressError where
  | InvalidPrefix
  | InvalidEncoding
  | InvalidLength
  | InvalidChecksum
  | InvalidPrivateKey
  deriving DecidableEq, Repr

/-- `address.rs` `ADDRESS_LENGTH` (20 payload bytes + 4 checksum). -/
def ADDRESS_LENGTH : Nat := 24

/-- The Bitcoin base58 alphabet of the `bs58` crate. -/
def base58Chars : List Char :=
  ['1', '2', '3', '4', '5', '6', '7', '8', '9', 'A', 'B', 'C', 'D', 'E',
   'F', 'G', 'H', 'J', 'K', 'L', 'M', 'N', 'P', 'Q', 'R', 'S', 'T', 'U',
   'V', 'W', 'X', 'Y', 'Z', 'a', 'b', 'c', 'd', 'e', 'f', 'g', 'h', 'i',
   'j', 'k', 'm', 'n', 'o', 'p', 'q', 'r', 's', 't', 'u', 'v', 'w', 'x',
   'y', 'z']

def digitToChar (d : Nat) : Char :=
  base58Chars.getD d '1'

def charToDigit (c : Char) : Option Nat :=
  base58Chars.indexOf? c

/-- Modelled from the spec: the encoder of the external `bs58` crate —
    leading zero bytes become leading '1' characters and the remaining
    big-endian value is written in base58, most significant digit
    first. -/
def base58Encode (bytes : List Nat) : List Char :=
  List.replicate (bytes.takeWhile (fun b => b = 0)).length '1'
    ++ (Nat.digits 58 (bytesToNat bytes)).reverse.map digitToChar

def charsToDigits : List Char → Option (List Nat)
  | [] => some []
  | c :: rest =>
    match charToDigit c, charsToDigits rest with
    | some d, some ds => some (d :: ds)
    | _, _ => none

/-- Base-58 evaluation of a digit string, most significant digit
    first. -/
def digitsToNatBE (ds : List Nat) : Nat :=
  ds.foldl (fun acc d => acc * 58 + d) 0

/-- Modelled from the spec: the decoder of the external `bs58` crate —
    reject any character outside the alphabet, turn leading '1'
    characters into leading zero bytes, and write the base58 value of
    the digit string in big-endian bytes. -/
def base58Decode (chars : List Char) : Option (List Nat) :=
  match charsToDigits chars with
  | none => none
  | some ds =>
    some (List.replicate (chars.takeWhile (fun c => c = '1')).length 0
      ++ (Nat.digits 256 (digitsToNatBE ds)).reverse)

/-- `Address::checksum`: first 4 bytes of the Keccak digest of the 20
    address bytes. -/
def checksum (E : Env) (addr : Address) : List Nat :=
  (E.keccak addr).take 4

/-- `Address::to_string_format`: "aeq1" and base58 of the 20 address
    bytes with the 4-byte checksum appended. -/
def to_string_format (E : Env) (addr : Address) : List Char :=
  ['a', 'e', 'q', '1'] ++ base58Encode (addr ++ checksum E addr)

/-- `Address::from_string`: prefix, base58 decoding, 24-byte length,
    re-derived checksum. -/
def from_string (E : Env) (s : List Char) : Except AddressError Address :=
  if s.take 4 ≠ ['a', 'e', 'q', '1'] then .error .InvalidPrefix
  else
    match base58Decode (s.drop 4) with
    | none => .error .InvalidEncoding
    | some decoded =>
      if decoded.length ≠ ADDRESS_LENGTH then .error .InvalidLength
      else if decoded.drop 20 ≠ checksum E (decoded.take 20) then
        .error .InvalidChecksum
      else .ok (decoded.take 20)

theorem charToDigit_digitToChar :
    ∀ d : Nat, d < 58 → charToDigit (digitToChar d) = some d := by decide

theorem digitToChar_ne_one :
    ∀ d : Nat, d < 58 → d ≠ 0 → digitToChar d ≠ '1' := by decide

theorem charsToDigits_append {l₁ l₂ : List Char} {d₁ d₂ : List Nat}
    (h₁ : charsToDigits l₁ = some d₁) (h₂ : charsToDigits l₂ = some d₂) :
    charsToDigits (l₁ ++ l₂) = some (d₁ ++ d₂) := by
  induction l₁ generalizing d₁ with
  | nil =>
    simp only [charsToDigits] at h₁
    cases h₁
    simpa using h₂
  | cons c rest ih =>
    cases hc : charToDigit c with
    | none => simp only [charsToDigits, hc] at h₁; cases h₁
    | some d =>
      cases hr : charsToDigits rest with
      | none => simp only [charsToDigits, hc, hr] at h₁; cases h₁
      | some ds =>
        simp only [charsToDigits, hc, hr] at h₁
        cases h₁
        rw [List.cons_append]
        simp [charsToDigits, hc, ih hr]

theorem charsToDigits_replicate_one (z : Nat) :
    charsToDigits (List.replicate z '1') = some (List.replicate z 0) := by
  have h1 : charToDigit '1' = some 0 := by decide
  induction z with
  | zero => rfl
  | succ z ih =>
    simp [List.replicate_succ, charsToDigits, ih, h1]

theorem charsToDigits_map (ds : List Nat) (h : ∀ d ∈ ds, d < 58) :
    charsToDigits (ds.map digitToChar) = some ds := by
  induction ds with
  | nil => rfl
  | cons d rest ih =>
    have hd : d < 58 := h d (List.mem_cons_self _ _)
    simp [List.map_cons, charsToDigits, charToDigit_digitToChar d hd,
      ih (fun x hx => h x (List.mem_cons_of_mem _ hx))]

theorem digitsToNatBE_replicate_zero (z : Nat) (ds : List Nat) :
    digitsToNatBE (List.replicate z 0 ++ ds) = digitsToNatBE ds := by
  induction z with
  | zero => simp
  | succ z ih =>
    simp only [List.replicate_succ, List.cons_append, digitsToNatBE,
      List.foldl_cons]
    simpa [digitsToNatBE] using ih

theorem digitsToNatBE_eq_ofDigits_reverse (l : List Nat) :
    digitsToNatBE l = Nat.ofDigits 58 l.reverse := by
  induction l using List.reverseRecOn with
  | nil => simp [digitsToNatBE, Nat.ofDigits_nil]
  | append_singleton l d ih =>
    have hfold : digitsToNatBE (l ++ [d]) = digitsToNatBE l * 58 + d := by
      simp [digitsToNatBE, List.foldl_append]
    rw [hfold, ih, List.reverse_append]
    simp [Nat.ofDigits_cons]
    ring

theorem takeWhile_zero_eq_replicate (l : List Nat) :
    l.takeWhile (fun b => b = 0)
      = List.replicate (l.takeWhile (fun b => b = 0)).length 0 := by
  apply List.eq_replicate_of_mem
  intro b hb
  have := List.mem_takeWhile_imp hb
  simpa using this

theorem head_dropWhile_zero_ne : ∀ (l : List Nat) (x : Nat) (xs : List Nat),
    l.dropWhile (fun b => b = 0) = x :: xs → x ≠ 0
  | [], x, xs, h => by simp [List.dropWhile] at h
  | b :: rest, x, xs, h => by
    rw [List.dropWhile_cons] at h
    by_cases hb : b = 0
    · rw [if_pos (by simpa using hb)] at h
      exact head_dropWhile_zero_ne rest x xs h
    · rw [if_neg (by simpa using hb)] at h
      cases h
      exact hb

theorem takeWhile_one_replicate_append (z : Nat) (tail : List Char)
    (htail : tail.takeWhile (fun c => c = '1') = []) :
    (List.replicate z '1' ++ tail).takeWhile (fun c => c = '1')
      = List.replicate z '1' := by
  induction z with
  | zero => simpa using htail
  | succ z ih =>
    simp only [List.replicate_succ, List.cons_append, List.takeWhile_cons]
    rw [if_pos (by decide), ih]

theorem takeWhile_one_nil {c : Char} {rest : List Char} (hc : c ≠ '1') :
    (c :: rest).takeWhile (fun x => x = '1') = [] := by
  rw [List.takeWhile_cons, if_neg (by simpa using hc)]

theorem bytesToNat_cons_pos {h : Nat} {t : List Nat} (hh : h ≠ 0) :
    0 < bytesToNat (h :: t) := by
  have h1 : 0 < h * 256 ^ t.length :=
    Nat.mul_pos (Nat.pos_of_ne_zero hh) (pow_pos (by norm_num) _)
  simp only [bytesToNat]
  omega

theorem base58_roundtrip {bytes : List Nat} (hb : ∀ x ∈ bytes, x < 256) :
    base58Decode (base58Encode bytes) = some bytes := by
  set z := (bytes.takeWhile (fun b => b = 0)).length with hz
  have hsplit : List.replicate z 0 ++ bytes.dropWhile (fun b => b = 0)
      = bytes := by
    conv_rhs => rw [← List.takeWhile_append_dropWhile
      (fun b => decide (b = 0)) bytes]
    rw [← takeWhile_zero_eq_replicate]
  have hval : bytesToNat bytes
      = bytesToNat (bytes.dropWhile (fun b => b = 0)) := by
    conv_lhs => rw [← hsplit]
    rw [bytesToNat_replicate_zero_append]
  cases hrest : bytes.dropWhile (fun b => b = 0) with
  | nil =>
    have hn : bytesToNat bytes = 0 := by
      rw [hval, hrest]
      rfl
    have hbytes : bytes = List.replicate z 0 := by
      rw [← hsplit, hrest, List.append_nil]
    have henc : base58Encode bytes = List.replicate z '1' := by
      unfold base58Encode
      rw [← hz, hn]
      simp
    have htw : ((List.replicate z '1').takeWhile (fun c => c = '1'))
        = List.replicate z '1' := by
      have := takeWhile_one_replicate_append z [] rfl
      simp only [List.append_nil] at this
      exact this
    have h2 : digitsToNatBE (List.replicate z 0) = 0 := by
      have := digitsToNatBE_replicate_zero z []
      simpa [digitsToNatBE] using this
    rw [henc]
    simp only [base58Decode, charsToDigits_replicate_one, htw,
      List.length_replicate, h2, Nat.digits_zero, List.reverse_nil,
      List.append_nil]
    rw [← hbytes]
  | cons h t =>
    have hh0 : h ≠ 0 := head_dropWhile_zero_ne bytes h t hrest
    have hbrest : ∀ x ∈ h :: t, x < 256 := by
      intro x hx
      apply hb
      rw [← hsplit, hrest]
      exact List.mem_append_right _ hx
    have hn_pos : bytesToNat bytes ≠ 0 := by
      rw [hval, hrest]
      exact (bytesToNat_cons_pos hh0).ne'
    set n := bytesToNat bytes with hnn
    have hds_ne : Nat.digits 58 n ≠ [] :=
      Nat.digits_ne_nil_iff_ne_zero.mpr hn_pos
    have hds_lt : ∀ d ∈ (Nat.digits 58 n).reverse, d < 58 := fun d hd =>
      Nat.digits_lt_base (by norm_num) (List.mem_reverse.mp hd)
    obtain ⟨m, ms, hms⟩ : ∃ m ms, (Nat.digits 58 n).reverse = m :: ms := by
      cases hcase : (Nat.digits 58 n).reverse with
      | nil =>
        exact absurd (by simpa using congrArg List.reverse hcase) hds_ne
      | cons m ms => exact ⟨m, ms, rfl⟩
    have hm_lt : m < 58 := hds_lt m (by rw [hms]; exact List.mem_cons_self _ _)
    have hm_ne : m ≠ 0 := by
      have h1 : (Nat.digits 58 n).reverse.head? = some m := by
        rw [hms]
        rfl
      rw [List.head?_reverse, List.getLast?_eq_getLast _ hds_ne] at h1
      have h2 := Nat.getLast_digit_ne_zero 58 hn_pos
      intro hcon
      apply h2
      rw [Option.some_inj.mp h1, hcon]
    have henc : base58Encode bytes
        = List.replicate z '1' ++ (m :: ms).map digitToChar := by
      unfold base58Encode
      rw [← hz, ← hnn, hms]
    have hctd : charsToDigits
        (List.replicate z '1' ++ (m :: ms).map digitToChar)
        = some (List.replicate z 0 ++ (m :: ms)) :=
      charsToDigits_append (charsToDigits_replicate_one z)
        (charsToDigits_map _ (by rw [← hms]; exact hds_lt))
    have htw : ((List.replicate z '1' ++ (m :: ms).map digitToChar).takeWhile
        (fun c => c = '1')) = List.replicate z '1' := by
      apply takeWhile_one_replicate_append
      simp only [List.map_cons]
      exact takeWhile_one_nil (digitToChar_ne_one m hm_lt hm_ne)
    have hvaln : digitsToNatBE (List.replicate z 0 ++ (m :: ms)) = n := by
      rw [digitsToNatBE_replicate_zero, digitsToNatBE_eq_ofDigits_reverse,
        ← hms, List.reverse_reverse, Nat.ofDigits_digits]
    have hdig256 : Nat.digits 256 n = (h :: t).reverse := by
      have hofd : n = Nat.ofDigits 256 (h :: t).reverse := by
        rw [hval, hrest, ← bytesToNatLE_reverse, bytesToNatLE_eq_ofDigits]
      rw [hofd]
      apply Nat.digits_ofDigits 256 (by norm_num)
      · intro d hd
        exact hbrest d (List.mem_reverse.mp hd)
      · intro hne
        have h1 : (h :: t).reverse.getLast? = some h := by
          rw [List.getLast?_reverse]
          rfl
        rw [List.getLast?_eq_getLast _ hne] at h1
        rw [Option.some_inj.mp h1]
        exact hh0
    rw [henc]
    simp only [base58Decode, hctd, htw, List.length_replicate, hvaln,
      hdig256, List.reverse_reverse]
    rw [← hsplit, hrest]

/-- C9, confirmed. Parsing the canonical textual encoding of a 20-byte
    address returns the address: `from_string (to_string_format addr)
    = Ok addr` for every Keccak oracle (with its 32-byte, byte-valued
    digest); and `from_string` returns InvalidPrefix when the string does
    not start with "aeq1", InvalidLength when the base58 payload does not
    decode to exactly 24 bytes, and InvalidChecksum when the re-derived
    checksum differs from the decoded trailing 4 bytes. -/
theorem from_string_to_string_format :
    (∀ (E : Env) (addr : Address), addr.length = 20 →
      (∀ x ∈ addr, x < 256) → (E.keccak addr).length = 32 →
      (∀ x ∈ E.keccak addr, x < 256) →
      from_string E (to_string_format E addr) = .ok addr)
    ∧ (∀ (E : Env) (s : List Char), s.take 4 ≠ ['a', 'e', 'q', '1'] →
        from_string E s = .error .InvalidPrefix)
    ∧ (∀ (E : Env) (s : List Char) (decoded : List Nat),
        s.take 4 = ['a', 'e', 'q', '1'] →
        base58Decode (s.drop 4) = some decoded →
        decoded.length ≠ ADDRESS_LENGTH →
        from_string E s = .error .InvalidLength)
    ∧ (∀ (E : Env) (s : List Char) (decoded : List Nat),
        s.take 4 = ['a', 'e', 'q', '1'] →
        base58Decode (s.drop 4) = some decoded →
        decoded.length = ADDRESS_LENGTH →
        decoded.drop 20 ≠ checksum E (decoded.take 20) →
        from_string E s = .error .InvalidChecksum) := by
  refine ⟨?_, ?_, ?_, ?_⟩
  · intro E addr hlen hbnd hklen hkbnd
    have hpay_bnd : ∀ x ∈ addr ++ checksum E addr, x < 256 := by
      intro x hx
      rcases List.mem_append.mp hx with hx | hx
      · exact hbnd x hx
      · exact hkbnd x (List.take_subset _ _ hx)
    have hpay_len : (addr ++ checksum E addr).length = 24 := by
      simp [checksum, List.length_take, hlen, hklen]
    have hdec := base58_roundtrip hpay_bnd
    unfold from_string to_string_format
    rw [List.take_left' (by rfl), if_neg (by simp),
      List.drop_left' (by rfl), hdec]
    simp only [hpay_len, ADDRESS_LENGTH]
    rw [if_neg (by norm_num)]
    rw [List.take_left' hlen, List.drop_left' hlen]
    rw [if_neg (fun hcon => hcon rfl)]
  · intro E s hpre
    unfold from_string
    rw [if_pos hpre]
  · intro E s decoded hpre hdec hlen
    unfold from_string
    rw [if_neg (fun hcon => hcon hpre)]
    simp only [hdec]
    rw [if_pos hlen]
  · intro E s decoded hpre hdec hlen hcs
    unfold from_string
    rw [if_neg (fun hcon => hcon hpre)]
    simp only [hdec]
    rw [if_neg (fun hcon => hcon hlen), if_pos hcs]

/-- Witness for `from_string_to_string_format`: round-trip of the
    concrete address `[3; 20]` under a constant Keccak oracle, and the
    InvalidPrefix case on a concrete string. -/
theorem from_string_to_string_format_witness :
    from_string idEnv (to_string_format idEnv (List.replicate 20 3))
        = .ok (List.replicate 20 3)
      ∧ from_string idEnv ['x'] = .error .InvalidPrefix :=
  ⟨from_string_to_string_format.1 idEnv (List.replicate 20 3) (by decide)
      (by decide) (by decide) (by decide),
    from_string_to_string_format.2.1 idEnv ['x'] (by decide)⟩
